import Mathlib

/-!
Verification of the JSON newline formatter core (jsonStringDetector.ts,
editSynchronizer.ts, decorationManager.ts) against its specification.
Documents are embedded as lists of characters; VSCode positions are
line/character pairs.  Indexed while-loops from the source are embedded
as fuel-indexed structural recursions; every public entry point passes a
fuel that covers the whole text, so the fuel never runs out on the
reachable arguments.
-/

/-- A VSCode text position: zero-based line and character. -/
structure Pos where
  line : Nat
  character : Nat
deriving DecidableEq

/-- vscode.Position.isBefore: strict lexicographic order. -/
def posBefore (a b : Pos) : Bool :=
  decide (a.line < b.line ∨ (a.line = b.line ∧ a.character < b.character))

/-- vscode.Position.isAfterOrEqual: the negation of isBefore. -/
def posAfterOrEqual (a b : Pos) : Bool :=
  decide (b.line < a.line ∨ (b.line = a.line ∧ b.character ≤ a.character))

/-- Walk of document.positionAt: consume a given number of characters,
    incrementing the line on each newline character. -/
def positionAtAux : List Char → Nat → Nat → Nat → Pos
  | _, 0, line, ch => ⟨line, ch⟩
  | [], _, line, ch => ⟨line, ch⟩
  | c :: rest, k + 1, line, ch =>
      if c = '\n' then positionAtAux rest k (line + 1) 0
      else positionAtAux rest k line (ch + 1)

/-- document.positionAt: convert a character offset to a position
    (offsets past the end of the text clamp to the end). -/
def positionAt (text : List Char) (offset : Nat) : Pos :=
  positionAtAux text offset 0 0

/-- Walk of document.offsetAt: skip the requested number of lines, then
    advance at most `character` characters without crossing a line break.
    Positions within the existing lines agree with VSCode exactly;
    line numbers past the last line clamp to the end of the text. -/
def offsetAtAux : List Char → Nat → Nat → Nat → Nat
  | [], _, _, acc => acc
  | c :: rest, line + 1, ch, acc =>
      if c = '\n' then offsetAtAux rest line ch (acc + 1)
      else offsetAtAux rest (line + 1) ch (acc + 1)
  | c :: rest, 0, ch, acc =>
      match ch with
      | 0 => acc
      | ch2 + 1 => if c = '\n' then acc else offsetAtAux rest 0 ch2 (acc + 1)

/-- document.offsetAt: convert a position to a character offset. -/
def offsetAt (text : List Char) (p : Pos) : Nat :=
  offsetAtAux text p.line p.character 0

/-- JavaScript text.substring(a, b): the characters at offsets [a, b). -/
def jsSubstring (text : List Char) (a b : Nat) : List Char :=
  (text.take b).drop a

/-! ## Newline Escape Locator (jsonStringDetector.ts, findNewlineEscapeSequences) -/

/-- The backward while-loop of findNewlineEscapeSequences: the number of
    consecutive backslash characters at the positions immediately before
    position `i` (scanning j = i-1, i-2, ... while text[j] is a backslash). -/
def backslashesEndingAt (text : List Char) : Nat → Nat
  | 0 => 0
  | j + 1 => if text.getD j 'A' = '\\' then backslashesEndingAt text j + 1 else 0

/-- The scanning loop of findNewlineEscapeSequences, indexed by fuel.
    The source loops `while (i < text.length - 1)`; over natural numbers that
    guard is `i + 1 < text.length`.  On a backslash-n pair the offset is kept
    iff the count of preceding backslashes is even, and the scan advances two
    characters; otherwise it advances one. -/
def findNewlineAux (text : List Char) : Nat → Nat → List Nat
  | 0, _ => []
  | fuel + 1, i =>
      if i + 1 < text.length then
        if text.getD i 'A' = '\\' ∧ text.getD (i + 1) 'A' = 'n' then
          (if backslashesEndingAt text i % 2 = 0 then [i] else []) ++
            findNewlineAux text fuel (i + 2)
        else findNewlineAux text fuel (i + 1)
      else []

/-- findNewlineEscapeSequences: offsets of all real newline escapes in a
    string content. -/
def findNewlineEscapeSequences (text : List Char) : List Nat :=
  findNewlineAux text text.length 0

/-- containsNewlines: whether the locator finds at least one occurrence. -/
def containsNewlines (text : List Char) : Bool :=
  decide (0 < (findNewlineEscapeSequences text).length)

/-- countNewlinesInString: the number of located occurrences. -/
def countNewlinesInString (text : List Char) : Nat :=
  (findNewlineEscapeSequences text).length

/-! ## Content transformers (editSynchronizer.ts) -/

/-- JavaScript `content.replace(/\\n/g, '\n')`: replace every leftmost,
    non-overlapping backslash-n character pair by a single line break. -/
def replaceEscapeWithLF : List Char → List Char
  | '\\' :: 'n' :: rest => '\n' :: replaceEscapeWithLF rest
  | c :: rest => c :: replaceEscapeWithLF rest
  | [] => []

/-- JavaScript `content.replace(/\n/g, '\\n')`: replace every line-break
    character by the two-character escape sequence. -/
def replaceLFWithEscape : List Char → List Char
  | '\n' :: rest => '\\' :: 'n' :: replaceLFWithEscape rest
  | c :: rest => c :: replaceLFWithEscape rest
  | [] => []

/-- JavaScript `text.includes('\\n')`: does the two-character escape
    sequence occur as a substring? -/
def containsEscapePair : List Char → Bool
  | '\\' :: 'n' :: _ => true
  | _ :: rest => containsEscapePair rest
  | [] => false

/-! ## String Scanner (jsonStringDetector.ts) -/

/-- Decimal digit test. -/
def isDigit (c : Char) : Bool := decide ('0' ≤ c ∧ c ≤ '9')

/-- Hexadecimal digit test (the regex [0-9a-fA-F]). -/
def isHexDigit (c : Char) : Bool :=
  isDigit c || decide ('a' ≤ c ∧ c ≤ 'f') || decide ('A' ≤ c ∧ c ≤ 'F')

/-- isValidUnicodeEscape: the four characters after a backslash-u must all
    be hex digits. -/
def isValidUnicodeEscape (hexChars : List Char) : Bool :=
  decide (hexChars.length = 4) && hexChars.all isHexDigit

/-- isValidEscapeSequence: the characters allowed after a backslash.
    (In extractSingleStringRange both the valid and the invalid cases
    advance the scan by two characters, so this predicate does not change
    the scanning behaviour.) -/
def isValidEscapeSequence (c : Char) : Bool :=
  c ∈ ['"', '\\', '/', 'b', 'f', 'n', 'r', 't', 'u']

/-- The scanning loop of extractSingleStringRange that looks for the
    closing quote of a string literal, starting just after the opening
    quote.  Backslash-u escapes with four hex digits advance six
    characters, any other backslash-led pair advances two (valid or not),
    an incomplete escape at the end of the text aborts (unterminated),
    every other character advances one (the control-character branch of
    the source also just advances one).  Returns the offset of the
    closing quote, or none for an unterminated literal. -/
def findStringEndAux (text : List Char) : Nat → Nat → Option Nat
  | 0, _ => none
  | fuel + 1, i =>
      if i < text.length then
        if text.getD i 'A' = '\\' then
          if i + 1 < text.length then
            if text.getD (i + 1) 'A' = 'u' then
              if i + 5 < text.length ∧ isValidUnicodeEscape (jsSubstring text (i + 2) (i + 6)) then
                findStringEndAux text fuel (i + 6)
              else findStringEndAux text fuel (i + 2)
            else findStringEndAux text fuel (i + 2)
          else none
        else if text.getD i 'A' = '"' then some i
        else findStringEndAux text fuel (i + 1)
      else none

/-- StringRange from jsonStringDetector.ts.  The source field `end` is a
    Lean keyword and is called `endPos` here. -/
structure StringRange where
  start : Pos
  endPos : Pos
  content : List Char
  hasNewlines : Bool
deriving DecidableEq

/-- extractSingleStringRange: at an opening quote in `scanText`, find the
    closing quote and build the string range (positions are computed
    against `docText`; the two texts coincide except in the large-file
    branch, where `scanText` is a prefix of `docText`).  Returns the range
    together with `nextIndex`, the offset just after the closing quote. -/
def extractSingleStringRange (docText scanText : List Char) (startIndex : Nat) :
    Option (StringRange × Nat) :=
  if scanText.getD startIndex 'A' = '"' then
    match findStringEndAux scanText scanText.length (startIndex + 1) with
    | none => none
    | some stringEnd =>
        let stringContent := jsSubstring scanText (startIndex + 1) stringEnd
        some ({ start := positionAt docText startIndex
              , endPos := positionAt docText (stringEnd + 1)
              , content := stringContent
              , hasNewlines := containsNewlines stringContent }, stringEnd + 1)
  else none

/-- The performance cap on the number of literals extracted. -/
def maxStrings : Nat := 10000

/-- The performance cap on the number of characters scanned (1MB). -/
def maxFileSize : Nat := 1024 * 1024

/-- The main loop of extractStringRangesFromValidJson: scan for opening
    quotes, extracting one string literal at a time, up to maxStrings. -/
def extractLoopAux (docText scanText : List Char) : Nat → Nat → Nat → List StringRange
  | 0, _, _ => []
  | fuel + 1, i, stringCount =>
      if i < scanText.length ∧ stringCount < maxStrings then
        if scanText.getD i 'A' = '"' then
          match extractSingleStringRange docText scanText i with
          | some (r, nextIndex) => r :: extractLoopAux docText scanText fuel nextIndex (stringCount + 1)
          | none => extractLoopAux docText scanText fuel (i + 1) stringCount
        else extractLoopAux docText scanText fuel (i + 1) stringCount
      else []

/-- The loop of extractStringRangesWithLimits: same scan over the
    truncated text, without the maxStrings counter. -/
def extractLimitsLoopAux (docText scanText : List Char) : Nat → Nat → List StringRange
  | 0, _ => []
  | fuel + 1, i =>
      if i < scanText.length then
        if scanText.getD i 'A' = '"' then
          match extractSingleStringRange docText scanText i with
          | some (r, nextIndex) => r :: extractLimitsLoopAux docText scanText fuel nextIndex
          | none => extractLimitsLoopAux docText scanText fuel (i + 1)
        else extractLimitsLoopAux docText scanText fuel (i + 1)
      else []

/-- extractStringRangesWithLimits: process only the first `limit`
    characters of the text. -/
def extractStringRangesWithLimits (text : List Char) (limit : Nat) : List StringRange :=
  let limitedText := text.take limit
  extractLimitsLoopAux text limitedText limitedText.length 0

/-- extractStringRangesFromValidJson: over the performance cap the
    truncated scan is used, otherwise the capped main loop. -/
def extractStringRangesFromValidJson (text : List Char) : List StringRange :=
  if text.length > maxFileSize then extractStringRangesWithLimits text maxFileSize
  else extractLoopAux text text text.length 0 0

/-! ## JSON validity (the JSON.parse call in parseJsonSafely)

The source validates the document with the JavaScript builtin JSON.parse
and only cares whether it throws.  The builtin is embedded here as an
acceptance-only recursive-descent recogniser for the standard JSON
grammar (ECMA-404 / RFC 8259): values are objects, arrays, strings,
numbers, true, false, null; whitespace is space, tab, line feed,
carriage return; strings admit the escapes quote, backslash, slash,
b, f, n, r, t and backslash-u with four hex digits and forbid raw
control characters. -/

/-- JSON whitespace. -/
def isJsonWs (c : Char) : Bool := c = ' ' || c = '\t' || c = '\n' || c = '\r'

/-- Skip leading JSON whitespace. -/
def skipWs : List Char → List Char
  | c :: rest => if isJsonWs c then skipWs rest else c :: rest
  | [] => []

/-- Match a literal keyword (the tails of true/false/null). -/
def expectLit : List Char → List Char → Option (List Char)
  | [], l => some l
  | k :: ks, c :: rest => if c = k then expectLit ks rest else none
  | _ :: _, [] => none

/-- Consume a (possibly empty) run of decimal digits. -/
def dropDigits : List Char → List Char
  | c :: rest => if isDigit c then dropDigits rest else c :: rest
  | [] => []

/-- Consume one or more decimal digits. -/
def parseDigits1 : List Char → Option (List Char)
  | c :: rest => if isDigit c then some (dropDigits rest) else none
  | [] => none

/-- The integer part of a JSON number: 0, or a nonzero digit followed by
    more digits. -/
def parseIntPart : List Char → Option (List Char)
  | c :: rest =>
      if c = '0' then some rest
      else if isDigit c then some (dropDigits rest) else none
  | [] => none

/-- The optional fraction part of a JSON number. -/
def parseFracPart : List Char → Option (List Char)
  | '.' :: rest => parseDigits1 rest
  | l => some l

/-- The optional exponent part of a JSON number. -/
def parseExpPart : List Char → Option (List Char)
  | c :: rest =>
      if c = 'e' ∨ c = 'E' then
        match rest with
        | s :: rest2 => if s = '+' ∨ s = '-' then parseDigits1 rest2 else parseDigits1 rest
        | [] => none
      else some (c :: rest)
  | [] => some []

/-- A JSON number, starting at its first character (sign included). -/
def parseJsonNumber (l : List Char) : Option (List Char) :=
  let afterSign := match l with
    | '-' :: rest => rest
    | _ => l
  match parseIntPart afterSign with
  | none => none
  | some l1 =>
      match parseFracPart l1 with
      | none => none
      | some l2 => parseExpPart l2

/-- The body of a JSON string after the opening quote, up to and
    including the closing quote. -/
def parseStringBody : Nat → List Char → Option (List Char)
  | 0, _ => none
  | _, [] => none
  | fuel + 1, c :: rest =>
      if c = '"' then some rest
      else if c = '\\' then
        match rest with
        | [] => none
        | e :: rest2 =>
            if e = 'u' then
              match rest2 with
              | h1 :: h2 :: h3 :: h4 :: rest3 =>
                  if isHexDigit h1 ∧ isHexDigit h2 ∧ isHexDigit h3 ∧ isHexDigit h4 then
                    parseStringBody fuel rest3
                  else none
              | _ => none
            else if e ∈ ['"', '\\', '/', 'b', 'f', 'n', 'r', 't'] then parseStringBody fuel rest2
            else none
      else if c.toNat < 32 then none
      else parseStringBody fuel rest

mutual

/-- A JSON value with leading whitespace. -/
def parseValue : Nat → List Char → Option (List Char)
  | 0, _ => none
  | fuel + 1, l =>
      match skipWs l with
      | [] => none
      | c :: rest =>
          if c = '"' then parseStringBody (rest.length + 1) rest
          else if c = '{' then parseObjectBody fuel rest
          else if c = '[' then parseArrayBody fuel rest
          else if c = 't' then expectLit (['r', 'u', 'e']) rest
          else if c = 'f' then expectLit (['a', 'l', 's', 'e']) rest
          else if c = 'n' then expectLit (['u', 'l', 'l']) rest
          else if c = '-' ∨ isDigit c then parseJsonNumber (c :: rest)
          else none

/-- The inside of a JSON object after the opening brace. -/
def parseObjectBody : Nat → List Char → Option (List Char)
  | 0, _ => none
  | fuel + 1, l =>
      match skipWs l with
      | '}' :: rest => some rest
      | _ => parseMembers fuel l

/-- One or more comma-separated members of a JSON object. -/
def parseMembers : Nat → List Char → Option (List Char)
  | 0, _ => none
  | fuel + 1, l =>
      match skipWs l with
      | '"' :: rest =>
          match parseStringBody (rest.length + 1) rest with
          | none => none
          | some rest2 =>
              match skipWs rest2 with
              | ':' :: rest3 =>
                  match parseValue fuel rest3 with
                  | none => none
                  | some rest4 =>
                      match skipWs rest4 with
                      | ',' :: rest5 => parseMembers fuel rest5
                      | '}' :: rest5 => some rest5
                      | _ => none
              | _ => none
      | _ => none

/-- The inside of a JSON array after the opening bracket. -/
def parseArrayBody : Nat → List Char → Option (List Char)
  | 0, _ => none
  | fuel + 1, l =>
      match skipWs l with
      | ']' :: rest => some rest
      | _ => parseElems fuel l

/-- One or more comma-separated elements of a JSON array. -/
def parseElems : Nat → List Char → Option (List Char)
  | 0, _ => none
  | fuel + 1, l =>
      match parseValue fuel l with
      | none => none
      | some rest =>
          match skipWs rest with
          | ',' :: rest2 => parseElems fuel rest2
          | ']' :: rest2 => some rest2
          | _ => none

end

/-- Acceptance of JSON.parse: one JSON value, surrounded only by
    whitespace.  The fuel covers any input: along every chain of
    recursive calls, any three consecutive steps consume at least one
    character (the cheapest cycle is parseValue consuming a bracket,
    then parseArrayBody and parseElems passing the rest through
    unchanged; object members and further array elements consume
    several characters per step), so three fuel per character plus a
    constant is enough and the recogniser never cuts a parse short. -/
def jsonValid (text : List Char) : Bool :=
  match parseValue (3 * text.length + 3) text with
  | some rest => (skipWs rest).isEmpty
  | none => false

/-- JsonParsingResult from jsonStringDetector.ts.  The optional diagnostic
    fields (error message and position, produced by categorizeJsonError
    from the JavaScript exception text) carry no information the claims
    constrain and are elided. -/
structure JsonParsingResult where
  isValid : Bool
  stringRanges : List StringRange
deriving DecidableEq

/-- parseJsonSafely: validate the whole text first; on success extract
    the string ranges, on failure report an empty range list. -/
def parseJsonSafely (text : List Char) : JsonParsingResult :=
  if jsonValid text then
    { isValid := true, stringRanges := extractStringRangesFromValidJson text }
  else
    { isValid := false, stringRanges := [] }

/-- isPositionInRange: start-inclusive, end-exclusive. -/
def isPositionInRange (position : Pos) (range : StringRange) : Bool :=
  posAfterOrEqual position range.start && posBefore position range.endPos

/-- getStringRangeAtPosition: the first scanned span containing the
    position, none when the document is not valid JSON. -/
def getStringRangeAtPosition (text : List Char) (position : Pos) : Option StringRange :=
  let result := parseJsonSafely text
  if result.isValid then
    result.stringRanges.find? (fun range => isPositionInRange position range)
  else none

/-- The loop of findNewlinePositionsInString: every backslash-n pair
    between the quotes (other backslash-led pairs are skipped whole). -/
def findNewlinePosAux (text : List Char) (r : StringRange) : Nat → Nat → List (Pos × StringRange)
  | 0, _ => []
  | fuel + 1, i =>
      let stringEndOffset := offsetAt text r.endPos - 1
      if i < stringEndOffset - 1 then
        if text.getD i 'A' = '\\' ∧ text.getD (i + 1) 'A' = 'n' then
          (positionAt text i, r) :: findNewlinePosAux text r fuel (i + 2)
        else if text.getD i 'A' = '\\' then
          findNewlinePosAux text r fuel (i + 2)
        else findNewlinePosAux text r fuel (i + 1)
      else []

/-- findNewlinePositionsInString: positions of the backslash-n pairs in
    one string range. -/
def findNewlinePositionsInString (text : List Char) (r : StringRange) : List (Pos × StringRange) :=
  findNewlinePosAux text r text.length (offsetAt text r.start + 1)

/-- extractNewlinePositions: all newline positions of the document, empty
    when the JSON is invalid. -/
def extractNewlinePositions (text : List Char) : List (Pos × StringRange) :=
  let result := parseJsonSafely text
  if result.isValid then
    result.stringRanges.foldl
      (fun acc r => if r.hasNewlines then acc ++ findNewlinePositionsInString text r else acc) []
  else []

/-! ## Detailed newline positions (jsonStringDetector.ts) -/

/-- The backward while-loop of isRealNewlineEscape: count consecutive
    backslashes before position `i`, never looking before `stringStart`. -/
def backslashRunBounded (text : List Char) (stringStart : Nat) : Nat → Nat
  | 0 => 0
  | j + 1 =>
      if stringStart ≤ j ∧ text.getD j 'A' = '\\' then
        backslashRunBounded text stringStart j + 1
      else 0

/-- isRealNewlineEscape: even backslash parity before the pair. -/
def isRealNewlineEscape (text : List Char) (position stringStart : Nat) : Bool :=
  decide (backslashRunBounded text stringStart position % 2 = 0)

/-- DetailedNewlinePosition from jsonStringDetector.ts. -/
structure DetailedNewlinePosition where
  position : Pos
  endPosition : Pos
  stringRange : StringRange
  offset : Nat
  endOffset : Nat
  indexInString : Nat
  beforeText : List Char
  afterText : List Char
deriving DecidableEq

/-- The loop of findDetailedNewlinePositionsInString: scan the content of
    one string range, recording every backslash-n pair with even backslash
    parity; backslash-u escapes with four hex digits advance six
    characters, other backslash-led pairs advance two. -/
def findDetailedAux (text : List Char) (r : StringRange) (sso seo : Nat) :
    Nat → Nat → Nat → List DetailedNewlinePosition
  | 0, _, _ => []
  | fuel + 1, i, newlineIndex =>
      if i < seo - 1 then
        if text.getD i 'A' = '\\' then
          if i + 1 < seo then
            if text.getD (i + 1) 'A' = 'n' then
              if isRealNewlineEscape text i sso then
                { position := positionAt text i
                , endPosition := positionAt text (i + 2)
                , stringRange := r
                , offset := i
                , endOffset := i + 2
                , indexInString := newlineIndex
                , beforeText := jsSubstring text sso i
                , afterText := jsSubstring text (i + 2) seo } ::
                  findDetailedAux text r sso seo fuel (i + 2) (newlineIndex + 1)
              else findDetailedAux text r sso seo fuel (i + 2) newlineIndex
            else if text.getD (i + 1) 'A' = 'u' then
              if i + 5 < seo ∧ isValidUnicodeEscape (jsSubstring text (i + 2) (i + 6)) then
                findDetailedAux text r sso seo fuel (i + 6) newlineIndex
              else findDetailedAux text r sso seo fuel (i + 2) newlineIndex
            else findDetailedAux text r sso seo fuel (i + 2) newlineIndex
          else findDetailedAux text r sso seo fuel (i + 1) newlineIndex
        else findDetailedAux text r sso seo fuel (i + 1) newlineIndex
      else []

/-- findDetailedNewlinePositionsInString: detailed occurrences of one
    string range, between the offsets just inside the quotes. -/
def findDetailedNewlinePositionsInString (text : List Char) (r : StringRange) :
    List DetailedNewlinePosition :=
  let stringStartOffset := offsetAt text r.start + 1
  let stringEndOffset := offsetAt text r.endPos - 1
  findDetailedAux text r stringStartOffset stringEndOffset text.length stringStartOffset 0

/-- getDetailedNewlinePositions: detailed occurrences of every span that
    has newline escapes, empty when the JSON is invalid. -/
def getDetailedNewlinePositions (text : List Char) : List DetailedNewlinePosition :=
  let result := parseJsonSafely text
  if result.isValid then
    result.stringRanges.foldl
      (fun acc r => if r.hasNewlines then acc ++ findDetailedNewlinePositionsInString text r else acc) []
  else []

/-! ## Visual position of a newline (jsonStringDetector.ts,
    calculateVisualPosition) -/

/-- JavaScript `(s.match(/\\n/g) || []).length`: the number of leftmost,
    non-overlapping backslash-n pairs. -/
def countEscapePairs : List Char → Nat
  | '\\' :: 'n' :: rest => countEscapePairs rest + 1
  | _ :: rest => countEscapePairs rest
  | [] => 0

/-- JavaScript `s.split('\\n')` accumulator: split on every leftmost,
    non-overlapping backslash-n pair. -/
def splitEscapeAux : List Char → List Char → List (List Char)
  | '\\' :: 'n' :: rest, acc => acc.reverse :: splitEscapeAux rest []
  | c :: rest, acc => splitEscapeAux rest (c :: acc)
  | [], acc => [acc.reverse]

/-- JavaScript `s.split('\\n')`. -/
def splitOnEscapePairs (s : List Char) : List (List Char) :=
  splitEscapeAux s []

/-- VisualPositionInfo from jsonStringDetector.ts. -/
structure VisualPositionInfo where
  visualLine : Nat
  visualCharacter : Nat
  totalVisualLines : Nat
  currentLineContent : List Char
  isLastNewlineInString : Bool
deriving DecidableEq

/-- calculateVisualPosition: the visual line is the number of
    backslash-n pairs before this occurrence, the visual character the
    length of the corresponding segment of the content split on
    backslash-n (the JavaScript `lines[i] || ''` yields the empty string
    both for a missing and for an empty segment). -/
def calculateVisualPosition (newlinePosition : DetailedNewlinePosition) : VisualPositionInfo :=
  let stringContent := newlinePosition.stringRange.content
  let beforeNewline := newlinePosition.beforeText
  let linesBeforeThisNewline := countEscapePairs beforeNewline
  let lines := splitOnEscapePairs stringContent
  let currentLineContent := lines.getD linesBeforeThisNewline []
  { visualLine := linesBeforeThisNewline
  , visualCharacter := currentLineContent.length
  , totalVisualLines := lines.length
  , currentLineContent := currentLineContent
  , isLastNewlineInString :=
      decide (newlinePosition.indexInString = countNewlinesInString stringContent - 1) }

/-! ## Content and position transforms (editSynchronizer.ts) -/

/-- transformVisualContentToActual: inside a JSON string, convert every
    line break of the fragment to the two-character escape; outside any
    string, return the fragment unchanged.  `rangeStart` is the start of
    the range being transformed. -/
def transformVisualContentToActual (docText visualContent : List Char) (rangeStart : Pos) :
    List Char :=
  match getStringRangeAtPosition docText rangeStart with
  | none => visualContent
  | some _ => replaceLFWithEscape visualContent

/-- transformActualContentToVisual: inside a JSON string, convert every
    backslash-n pair of the fragment to a line break; outside any string,
    return the fragment unchanged. -/
def transformActualContentToVisual (docText actualContent : List Char) (rangeStart : Pos) :
    List Char :=
  match getStringRangeAtPosition docText rangeStart with
  | none => actualContent
  | some _ => replaceEscapeWithLF actualContent

/-- The loop of transformActualToVisual over the occurrence list: an
    occurrence strictly before the target offset counts; when the target
    offset is at or past its end the visual line advances and the visual
    character restarts after the escape.  (The newlinesBefore counter of
    the source is written to but never read and is dropped here.) -/
def actualToVisualFold (actualOffset : Nat) :
    List DetailedNewlinePosition → Nat × Nat → Nat × Nat
  | [], st => st
  | np :: rest, (visualLine, visualCharacter) =>
      if np.offset < actualOffset then
        if np.offset + 2 ≤ actualOffset then
          actualToVisualFold actualOffset rest (visualLine + 1, actualOffset - (np.offset + 2))
        else actualToVisualFold actualOffset rest (visualLine, visualCharacter)
      else actualToVisualFold actualOffset rest (visualLine, visualCharacter)

/-- transformActualToVisual: positions pass through unchanged when the
    document has no occurrences.  (`Math.max(0, c)` of the source is the
    identity on natural numbers.) -/
def transformActualToVisual (text : List Char) (actualPosition : Pos) : Pos :=
  let newlinePositions := getDetailedNewlinePositions text
  if newlinePositions.length = 0 then actualPosition
  else
    let actualOffset := offsetAt text actualPosition
    let st := actualToVisualFold actualOffset newlinePositions
      (actualPosition.line, actualPosition.character)
    ⟨st.1, max 0 st.2⟩

/-- calculateVisualPositionForNewline: the visual position at which an
    occurrence renders its line break. -/
def calculateVisualPositionForNewline (newlinePosition : DetailedNewlinePosition) : Pos :=
  let visualInfo := calculateVisualPosition newlinePosition
  ⟨newlinePosition.position.line + visualInfo.visualLine, visualInfo.visualCharacter⟩

/-- The loop of transformVisualToActual over the occurrence list,
    carrying the running actual line and the cumulative offset.  (The
    actualCharacter variable of the source is never reassigned.) -/
def visualToActualFold (visualPosition : Pos) :
    List DetailedNewlinePosition → Nat × Nat → Nat × Nat
  | [], st => st
  | np :: rest, (actualLine, cumulativeOffset) =>
      let nvp := calculateVisualPositionForNewline np
      if nvp.line < visualPosition.line ∨
          (nvp.line = visualPosition.line ∧ nvp.character ≤ visualPosition.character) then
        if nvp.line < visualPosition.line then
          visualToActualFold visualPosition rest (np.position.line, cumulativeOffset + 2)
        else visualToActualFold visualPosition rest (actualLine, cumulativeOffset + 2)
      else visualToActualFold visualPosition rest (actualLine, cumulativeOffset)

/-- transformVisualToActual: positions pass through unchanged when the
    document has no occurrences. -/
def transformVisualToActual (text : List Char) (visualPosition : Pos) : Pos :=
  let newlinePositions := getDetailedNewlinePositions text
  if newlinePositions.length = 0 then visualPosition
  else
    let st := visualToActualFold visualPosition newlinePositions (visualPosition.line, 0)
    let actualOffset := offsetAt text ⟨st.1, visualPosition.character⟩ + st.2
    positionAt text (max 0 actualOffset)

/-! ## Decoration manager (decorationManager.ts) -/

/-- One decoration of currentDecorations: the range covering a
    backslash-n escape (decorations are created with isActive = true and
    stay active while in the list, so the flag is elided). -/
structure Decoration where
  rangeStart : Pos
  rangeEnd : Pos
deriving DecidableEq

/-- applyDecorations: one decoration per detailed newline position,
    covering the two characters of the escape. -/
def applyDecorations (text : List Char) : List Decoration :=
  (getDetailedNewlinePositions text).map (fun np => ⟨np.position, np.endPosition⟩)

/-- vscode Range.intersection is defined (possibly empty) exactly when
    neither range lies strictly beyond the other; touching ranges
    intersect. -/
def rangesIntersect (s1 e1 s2 e2 : Pos) : Bool :=
  !(posBefore e1 s2) && !(posBefore e2 s1)

/-- getDecorationsInRange: the active decorations whose range intersects
    the given range. -/
def getDecorationsInRange (decorations : List Decoration) (rangeStart rangeEnd : Pos) :
    List Decoration :=
  decorations.filter (fun d => rangesIntersect rangeStart rangeEnd d.rangeStart d.rangeEnd)

/-! ## Synchronization engine (editSynchronizer.ts) -/

/-- One entry of a vscode TextDocumentContentChangeEvent. -/
structure ContentChange where
  rangeStart : Pos
  rangeEnd : Pos
  text : List Char
deriving DecidableEq

/-- The document carried by a change event. -/
structure TextDocument where
  uri : List Char
  languageId : List Char
  text : List Char
  version : Nat
deriving DecidableEq

/-- A vscode TextDocumentChangeEvent. -/
structure TextDocumentChangeEvent where
  document : TextDocument
  contentChanges : List ContentChange
deriving DecidableEq

/-- EditMapping from editSynchronizer.ts. -/
structure EditMapping where
  visualPosition : Pos
  actualPosition : Pos
  offset : Nat
deriving DecidableEq

/-- DocumentState from editSynchronizer.ts. -/
structure DocumentState where
  originalContent : List Char
  visualContent : List Char
  mappings : List EditMapping
  version : Nat
deriving DecidableEq

/-- calculateInitialMappings: one mapping per occurrence, each escape
    shifting the visual line of the following ones by its cumulative
    offset. -/
def calculateInitialMappings (text : List Char) : List EditMapping :=
  let newlinePositions := getDetailedNewlinePositions text
  (newlinePositions.foldl
    (fun (st : List EditMapping × Nat) np =>
      ( st.1 ++ [{ visualPosition := ⟨np.position.line + st.2, np.position.character⟩
                 , actualPosition := np.position
                 , offset := st.2 }]
      , st.2 + 2))
    ([], 0)).1

/-- A synthesized counter-edit: replace the range by the new text. -/
structure CounterEdit where
  rangeStart : Pos
  rangeEnd : Pos
  newText : List Char
deriving DecidableEq

/-- The per-engine mutable state: the one-shot in-flight flag and the
    documentStates map (an association list keyed by document uri). -/
structure SyncState where
  isProcessingEdit : Bool
  documentStates : List (List Char × DocumentState)
deriving DecidableEq

/-- Map.get on the documentStates association list. -/
def statesGet : List (List Char × DocumentState) → List Char → Option DocumentState
  | [], _ => none
  | (k, v) :: rest, key => if k = key then some v else statesGet rest key

/-- Map.set on the documentStates association list. -/
def statesSet : List (List Char × DocumentState) → List Char → DocumentState →
    List (List Char × DocumentState)
  | [], key, v => [(key, v)]
  | (k, v0) :: rest, key, v =>
      if k = key then (key, v) :: rest else (k, v0) :: statesSet rest key v

/-- isJsonDocument: languageId json or jsonc. -/
def isJsonDocument (document : TextDocument) : Bool :=
  document.languageId = ("json").toList || document.languageId = ("jsonc").toList

/-- initializeDocumentState. -/
def initializeDocumentState (st : SyncState) (document : TextDocument) : SyncState :=
  { st with documentStates :=
      (statesSet st.documentStates document.uri
        { originalContent := document.text
        , visualContent := document.text
        , mappings := calculateInitialMappings document.text
        , version := document.version }) }

/-- ensureDocumentState: initialize the state of a JSON document that has
    none yet. -/
def ensureDocumentState (st : SyncState) (document : TextDocument) : SyncState :=
  if isJsonDocument document ∧ (statesGet st.documentStates document.uri).isNone then
    initializeDocumentState st document
  else st

/-- updateDocumentState: refresh content, version and mappings of an
    existing state (its visualContent field is left as it was), or
    initialize a missing one. -/
def updateDocumentState (st : SyncState) (document : TextDocument) : SyncState :=
  match statesGet st.documentStates document.uri with
  | some existingState =>
      { st with documentStates :=
          (statesSet st.documentStates document.uri
            { existingState with
                originalContent := document.text
              , version := document.version
              , mappings := calculateInitialMappings document.text }) }
  | none => initializeDocumentState st document

/-- convertLineBreaksToEscapeSequences: the counter-edit replaces the
    change range by the converted text, and is only issued when the
    conversion changed something. -/
def convertLineBreaksToEscapeSequences (docText : List Char) (change : ContentChange) :
    Option CounterEdit :=
  let newText := change.text
  let convertedText := transformVisualContentToActual docText newText change.rangeStart
  if convertedText ≠ newText then
    some { rangeStart := change.rangeStart, rangeEnd := change.rangeEnd, newText := convertedText }
  else none

/-- handleDecoratedAreaEdit: inside a string range, an insertion holding a
    real line break but no backslash-n pair is converted; the deletion
    branch of the source (handleLineBreakDeletion) issues no edit. -/
def handleDecoratedAreaEdit (docText : List Char) (change : ContentChange) : Option CounterEdit :=
  match getStringRangeAtPosition docText change.rangeStart with
  | none => none
  | some _ =>
      if change.text.contains '\n' ∧ ¬ containsEscapePair change.text then
        convertLineBreaksToEscapeSequences docText change
      else none

/-- processContentChange: only changes that touch a decoration are
    synchronized; the other branch (handleNewlineInsertion) issues no
    edit. -/
def processContentChange (docText : List Char) (decorations : List Decoration)
    (change : ContentChange) : Option CounterEdit :=
  let affectedDecorations := getDecorationsInRange decorations change.rangeStart change.rangeEnd
  if affectedDecorations.length > 0 then handleDecoratedAreaEdit docText change
  else none

/-- onDidChangeTextDocument: skip while a counter-edit is in flight, skip
    non-JSON documents, skip invalid JSON; otherwise process every content
    change, update the document state, and return the synthesized
    counter-edits.  The in-flight flag is raised exactly when a
    counter-edit was issued (the source raises it just before applying
    the workspace edit). -/
def onDidChangeTextDocument (st : SyncState) (decorations : List Decoration)
    (event : TextDocumentChangeEvent) : SyncState × List CounterEdit :=
  if st.isProcessingEdit then (st, [])
  else if ¬ isJsonDocument event.document then (st, [])
  else
    let parseResult := parseJsonSafely event.document.text
    if ¬ parseResult.isValid then (st, [])
    else
      let st1 := ensureDocumentState st event.document
      let edits := event.contentChanges.filterMap
        (processContentChange event.document.text decorations)
      let st2 := updateDocumentState st1 event.document
      ({ st2 with isProcessingEdit := st.isProcessingEdit || !edits.isEmpty }, edits)

/-- The completion callback of workspace.applyEdit: the in-flight flag is
    cleared. -/
def applyEditCompleted (st : SyncState) : SyncState :=
  { st with isProcessingEdit := false }

/-! ## Concrete documents used in the verification -/

/-- The scenario-D document of the specification. -/
def docD : List Char := ("\x7b\"a\": \"x\\ny\"\x7d").toList

/-- A valid document whose text spans two actual lines. -/
def docM : List Char := ("\x7b\n\"a\": \"x\\ny\"\x7d").toList

/-- A valid document with a line break between its two members. -/
def docC2 : List Char := ("\x7b\"a\": \"x\\ny\",\n\"b\": 1\x7d").toList

/-- A valid document whose decorated string has characters between the
    escape and the closing quote. -/
def docC3 : List Char := ("\x7b\"a\": \"x\\nABCy\"\x7d").toList

/-- A valid document without any newline escape. -/
def docPlain : List Char := ("\x7b\"a\": \"xy\"\x7d").toList

/-- The invalid document of the fail-closed scenario. -/
def docInvalid : List Char := ("\x7b\"a\": \x7d").toList

/-- A vscode document wrapping a text with language json. -/
def mkJsonDocument (text : List Char) : TextDocument :=
  { uri := ("file.json").toList, languageId := ("json").toList, text := text, version := 1 }

/-- The engine state before any counter-edit is in flight. -/
def st0 : SyncState := ⟨false, []⟩

lemma le_of_mem_findNewlineAux (text : List Char) :
    ∀ fuel i j, j ∈ findNewlineAux text fuel i → i ≤ j := by
  intro fuel
  induction fuel with
  | zero => intro i j h; simp [findNewlineAux] at h
  | succ fuel ih =>
    intro i j h
    by_cases hlt : i + 1 < text.length
    · by_cases hpair : text.getD i 'A' = '\\' ∧ text.getD (i + 1) 'A' = 'n'
      · rw [findNewlineAux, if_pos hlt, if_pos hpair] at h
        rcases List.mem_append.mp h with h1 | h2
        · by_cases hpar : backslashesEndingAt text i % 2 = 0
          · rw [if_pos hpar] at h1; simp at h1; omega
          · rw [if_neg hpar] at h1; simp at h1
        · have := ih (i + 2) j h2; omega
      · rw [findNewlineAux, if_pos hlt, if_neg hpair] at h
        have := ih (i + 1) j h; omega
    · rw [findNewlineAux, if_neg hlt] at h; simp at h

lemma mem_findNewlineAux (text : List Char) :
    ∀ fuel i, text.length ≤ i + fuel → ∀ j,
      (j ∈ findNewlineAux text fuel i ↔
        (i ≤ j ∧ j + 1 < text.length ∧ text.getD j 'A' = '\\' ∧
          text.getD (j + 1) 'A' = 'n' ∧ backslashesEndingAt text j % 2 = 0)) := by
  intro fuel
  induction fuel with
  | zero =>
    intro i hfuel j
    simp only [findNewlineAux, List.not_mem_nil, false_iff]
    rintro ⟨h1, h2, -⟩; omega
  | succ fuel ih =>
    intro i hfuel j
    by_cases hlt : i + 1 < text.length
    · by_cases hpair : text.getD i 'A' = '\\' ∧ text.getD (i + 1) 'A' = 'n'
      · rw [findNewlineAux, if_pos hlt, if_pos hpair, List.mem_append,
          ih (i + 2) (by omega) j]
        constructor
        · rintro (h1 | ⟨h2a, h2⟩)
          · by_cases hpar : backslashesEndingAt text i % 2 = 0
            · rw [if_pos hpar] at h1; simp at h1; subst h1
              exact ⟨le_refl _, hlt, hpair.1, hpair.2, hpar⟩
            · rw [if_neg hpar] at h1; simp at h1
          · exact ⟨by omega, h2⟩
        · rintro ⟨hij, hj1, hbs, hn, hpar⟩
          rcases Nat.lt_or_ge j (i + 2) with hj2 | hj2
          · have : j = i ∨ j = i + 1 := by omega
            rcases this with rfl | rfl
            · left; rw [if_pos hpar]; simp
            · exfalso; rw [hpair.2] at hbs; exact absurd hbs (by decide)
          · exact Or.inr ⟨hj2, hj1, hbs, hn, hpar⟩
      · rw [findNewlineAux, if_pos hlt, if_neg hpair, ih (i + 1) (by omega) j]
        constructor
        · rintro ⟨hij, h⟩; exact ⟨by omega, h⟩
        · rintro ⟨hij, hj1, hbs, hn, hpar⟩
          refine ⟨?_, hj1, hbs, hn, hpar⟩
          rcases Nat.eq_or_lt_of_le hij with rfl | h
          · exact absurd ⟨hbs, hn⟩ hpair
          · omega
    · rw [findNewlineAux, if_neg hlt]
      simp only [List.not_mem_nil, false_iff]
      rintro ⟨h1, h2, -⟩; omega

lemma pairwise_findNewlineAux (text : List Char) :
    ∀ fuel i, (findNewlineAux text fuel i).Pairwise (· < ·) := by
  intro fuel
  induction fuel with
  | zero => intro i; simp [findNewlineAux]
  | succ fuel ih =>
    intro i
    by_cases hlt : i + 1 < text.length
    · by_cases hpair : text.getD i 'A' = '\\' ∧ text.getD (i + 1) 'A' = 'n'
      · rw [findNewlineAux, if_pos hlt, if_pos hpair]
        refine List.pairwise_append.mpr ⟨?_, ih (i + 2), ?_⟩
        · by_cases hpar : backslashesEndingAt text i % 2 = 0
          · rw [if_pos hpar]; simp
          · rw [if_neg hpar]; simp
        · intro a ha b hb
          have hb2 := le_of_mem_findNewlineAux text fuel (i + 2) b hb
          by_cases hpar : backslashesEndingAt text i % 2 = 0
          · rw [if_pos hpar] at ha; simp at ha; omega
          · rw [if_neg hpar] at ha; simp at ha
      · rw [findNewlineAux, if_pos hlt, if_neg hpair]; exact ih (i + 1)
    · rw [findNewlineAux, if_neg hlt]; simp

lemma mem_findNewlineEscapeSequences (text : List Char) (j : Nat) :
    j ∈ findNewlineEscapeSequences text ↔
      (j + 1 < text.length ∧ text.getD j 'A' = '\\' ∧
        text.getD (j + 1) 'A' = 'n' ∧ backslashesEndingAt text j % 2 = 0) := by
  rw [findNewlineEscapeSequences, mem_findNewlineAux text text.length 0 (by omega) j]
  constructor
  · rintro ⟨-, h⟩; exact h
  · intro h; exact ⟨Nat.zero_le j, h⟩

lemma getD_replicate_append (c d : Char) (l : List Char) :
    ∀ m i, (List.replicate m c ++ l).getD i d = if i < m then c else l.getD (i - m) d := by
  intro m
  induction m with
  | zero => intro i; simp
  | succ m ih =>
    intro i
    rw [List.replicate_succ]
    cases i with
    | zero => simp
    | succ i =>
      simp only [List.cons_append, List.getD_cons_succ, ih i]
      by_cases h : i < m
      · rw [if_pos h, if_pos (by omega)]
      · rw [if_neg h, if_neg (by omega)]
        congr 1
        omega

lemma backslashesEndingAt_replicate (l : List Char) (m : Nat) :
    ∀ i, i ≤ m → backslashesEndingAt (List.replicate m '\\' ++ l) i = i := by
  intro i
  induction i with
  | zero => intro _; rfl
  | succ i ih =>
    intro h
    rw [backslashesEndingAt, getD_replicate_append]
    rw [if_pos (show i < m by omega)]
    rw [if_pos rfl, ih (by omega)]

lemma nodup_eq_singleton {l : List Nat} {a : Nat} (hnd : l.Nodup)
    (h : ∀ x, x ∈ l ↔ x = a) : l = [a] := by
  cases l with
  | nil => exact absurd ((h a).mpr rfl) (List.not_mem_nil a)
  | cons b t =>
    have hb : b = a := (h b).mp (List.mem_cons_self b t)
    subst hb
    cases t with
    | nil => rfl
    | cons c t2 =>
      have hc : c = b := (h c).mp (List.mem_cons_of_mem b (List.mem_cons_self c t2))
      subst hc
      exact absurd (List.mem_cons_self c t2) (List.nodup_cons.mp hnd).1

lemma replicate_append_cons (m : Nat) (c : Char) (l : List Char) :
    List.replicate m c ++ c :: l = List.replicate (m + 1) c ++ l := by
  rw [List.replicate_succ']
  simp

lemma findNewline_even_family (k : Nat) :
    findNewlineEscapeSequences (List.replicate (2 * k) '\\' ++ ['\\', 'n']) = [2 * k] := by
  have hrw : List.replicate (2 * k) '\\' ++ ['\\', 'n'] =
      List.replicate (2 * k + 1) '\\' ++ ['n'] := by
    have := replicate_append_cons (2 * k) '\\' ['n']
    simpa using this
  rw [hrw]
  apply nodup_eq_singleton
  · exact ((pairwise_findNewlineAux _ _ _).imp (fun h => Nat.ne_of_lt h))
  · intro j
    rw [mem_findNewlineEscapeSequences]
    constructor
    · rintro ⟨hlen, hbs, hn, hpar⟩
      rw [getD_replicate_append] at hn
      by_cases hj : j + 1 < 2 * k + 1
      · rw [if_pos hj] at hn; exact absurd hn (by decide)
      · rw [if_neg hj] at hn
        simp only [List.length_append, List.length_replicate, List.length_cons,
          List.length_nil] at hlen
        have : j + 1 - (2 * k + 1) = 0 := by omega
        rw [this] at hn
        omega
    · rintro rfl
      refine ⟨by simp, ?_, ?_, ?_⟩
      · rw [getD_replicate_append, if_pos (by omega)]
      · rw [getD_replicate_append, if_neg (by omega)]
        simp
      · rw [backslashesEndingAt_replicate _ _ _ (by omega)]
        omega

lemma findNewline_odd_family (k : Nat) :
    findNewlineEscapeSequences (List.replicate (2 * k + 1) '\\' ++ ['\\', 'n']) = [] := by
  have hrw : List.replicate (2 * k + 1) '\\' ++ ['\\', 'n'] =
      List.replicate (2 * k + 2) '\\' ++ ['n'] := by
    have := replicate_append_cons (2 * k + 1) '\\' ['n']
    simpa using this
  rw [hrw]
  rw [List.eq_nil_iff_forall_not_mem]
  intro j hj
  rw [mem_findNewlineEscapeSequences] at hj
  obtain ⟨hlen, hbs, hn, hpar⟩ := hj
  rw [getD_replicate_append] at hn
  by_cases hjk : j + 1 < 2 * k + 2
  · rw [if_pos hjk] at hn; exact absurd hn (by decide)
  · rw [if_neg hjk] at hn
    simp only [List.length_append, List.length_replicate, List.length_cons,
      List.length_nil] at hlen
    have hj0 : j + 1 - (2 * k + 2) = 0 := by omega
    rw [hj0] at hn
    have hj2 : j = 2 * k + 1 := by omega
    subst hj2
    rw [backslashesEndingAt_replicate _ _ _ (by omega)] at hpar
    omega

lemma getD_length_le (l : List Char) (n : Nat) (d : Char) (h : l.length ≤ n) :
    l.getD n d = d := by
  rw [List.getD_eq_getElem?_getD, List.getElem?_eq_none (by omega)]
  rfl

/-- C1: backslash-parity law of the newline escape locator: a backslash
    immediately followed by n is reported iff the run of consecutive
    backslashes before it has even length; the content of 2k backslashes
    followed by backslash-n yields exactly the offset 2k, with 2k+1
    backslashes it yields nothing; locate on backslash-backslash-n is
    empty and locate on backslash-n-backslash-backslash-n is exactly
    offset 0. -/
theorem C1_parity_law :
    (∀ (text : List Char) (i : Nat),
        text.getD i 'A' = '\\' → text.getD (i + 1) 'A' = 'n' →
        (i ∈ findNewlineEscapeSequences text ↔ backslashesEndingAt text i % 2 = 0))
    ∧ (∀ k, findNewlineEscapeSequences (List.replicate (2 * k) '\\' ++ ['\\', 'n']) = [2 * k])
    ∧ (∀ k, findNewlineEscapeSequences (List.replicate (2 * k + 1) '\\' ++ ['\\', 'n']) = [])
    ∧ findNewlineEscapeSequences ['\\', '\\', 'n'] = []
    ∧ findNewlineEscapeSequences ['\\', 'n', '\\', '\\', 'n'] = [0] := by
  refine ⟨?_, findNewline_even_family, findNewline_odd_family, by decide, by decide⟩
  intro text i hbs hn
  have hlen : i + 1 < text.length := by
    by_contra hcon
    rw [getD_length_le text (i + 1) 'A' (by omega)] at hn
    exact absurd hn (by decide)
  rw [mem_findNewlineEscapeSequences]
  constructor
  · rintro ⟨-, -, -, hpar⟩; exact hpar
  · intro hpar; exact ⟨hlen, hbs, hn, hpar⟩

/-- Witness for C1 at the concrete content backslash-n. -/
theorem C1_parity_law_witness :
    (0 ∈ findNewlineEscapeSequences ['\\', 'n'] ↔
      backslashesEndingAt ['\\', 'n'] 0 % 2 = 0) ∧
    findNewlineEscapeSequences (List.replicate 4 '\\' ++ ['\\', 'n']) = [4] :=
  ⟨C1_parity_law.1 ['\\', 'n'] 0 (by decide) (by decide),
    by simpa using C1_parity_law.2.1 2⟩

lemma replaceEscapeWithLF_cons (c : Char) (f : List Char)
    (h : c ≠ '\\' ∨ ∀ rest, f ≠ 'n' :: rest) :
    replaceEscapeWithLF (c :: f) = c :: replaceEscapeWithLF f := by
  rw [replaceEscapeWithLF.eq_def]
  split
  · rename_i rest heq
    injection heq with h1 h2
    subst h1 h2
    rcases h with hc | hd
    · exact absurd rfl hc
    · exact absurd rfl (hd rest)
  · rename_i cc rest hno heq
    injection heq with h1 h2
    subst h1 h2
    rfl
  · rename_i heq
    exact absurd heq (List.cons_ne_nil c f)

lemma replaceLFWithEscape_cons (c : Char) (f : List Char) (h : c ≠ '\n') :
    replaceLFWithEscape (c :: f) = c :: replaceLFWithEscape f := by
  rw [replaceLFWithEscape.eq_def]
  split
  · rename_i heq
    injection heq with h1 h2
    exact absurd h1 h
  · rename_i cc rest hno heq
    injection heq with h1 h2
    subst h1 h2
    rfl
  · rename_i heq
    exact absurd heq (List.cons_ne_nil c f)

lemma replace_roundtrip (f : List Char) (h : '\n' ∉ f) :
    replaceLFWithEscape (replaceEscapeWithLF f) = f := by
  induction f using replaceEscapeWithLF.induct with
  | case1 rest ih =>
    have hr : '\n' ∉ rest := fun hc => h (by simp [hc])
    show replaceLFWithEscape ('\n' :: replaceEscapeWithLF rest) = _
    show '\\' :: 'n' :: replaceLFWithEscape (replaceEscapeWithLF rest) = _
    rw [ih hr]
  | case2 c rest hno ih =>
    have hc : c ≠ '\n' := fun hcc => h (by simp [hcc])
    have hr : '\n' ∉ rest := fun hcc => h (by simp [hcc])
    have hcond : c ≠ '\\' ∨ ∀ r2, rest ≠ 'n' :: r2 := by
      by_cases hcb : c = '\\'
      · right
        intro r2 hr2
        exact hno r2 hcb hr2
      · exact Or.inl hcb
    rw [replaceEscapeWithLF_cons c rest hcond, replaceLFWithEscape_cons c _ hc, ih hr]
  | case3 => rfl

lemma replaceLFWithEscape_ne (f : List Char) (h : '\n' ∈ f) :
    replaceLFWithEscape f ≠ f := by
  induction f with
  | nil => simp at h
  | cons c rest ih =>
    by_cases hc : c = '\n'
    · subst hc
      intro hcon
      rw [replaceLFWithEscape] at hcon
      injection hcon with h1 h2
      exact absurd h1 (by decide)
    · have hr : '\n' ∈ rest := by
        rcases List.mem_cons.mp h with h1 | h1
        · exact absurd h1.symm hc
        · exact h1
      rw [replaceLFWithEscape_cons c rest hc]
      intro hcon
      injection hcon with h1 h2
      exact ih hr h2

/-- C2 counterexample: in the valid document docC2, the fragment taken
    from the range [10, 14) whose start, the character y at offset 10,
    lies inside the string span with hasNewlines = true, contains the raw
    line break that separates the two members; toVisual leaves it alone
    and toActual escapes it, so the round trip does not return the
    fragment. -/
theorem C2_roundtrip_counterexample :
    jsonValid docC2 = true ∧
    getStringRangeAtPosition docC2 ⟨0, 10⟩ =
      some ⟨⟨0, 6⟩, ⟨0, 12⟩, ['x', '\\', 'n', 'y'], true⟩ ∧
    positionAt docC2 10 = ⟨0, 10⟩ ∧
    jsSubstring docC2 10 14 = ['y', '"', ',', '\n'] ∧
    transformVisualContentToActual docC2
      (transformActualContentToVisual docC2 (jsSubstring docC2 10 14) ⟨0, 10⟩) ⟨0, 10⟩
      ≠ jsSubstring docC2 10 14 := by decide

/-- C2 amended: toActual after toVisual returns every fragment without a
    raw line-break character unchanged, whatever the document and range;
    fragments lying wholly inside a string literal of a valid JSON
    document contain no raw line break, so the round-trip law holds for
    them. -/
theorem C2_roundtrip_amended (docText f : List Char) (rangeStart : Pos)
    (h : '\n' ∉ f) :
    transformVisualContentToActual docText
      (transformActualContentToVisual docText f rangeStart) rangeStart = f := by
  rw [transformActualContentToVisual, transformVisualContentToActual]
  cases getStringRangeAtPosition docText rangeStart with
  | none => rfl
  | some r => exact replace_roundtrip f h

/-- Witness for the amended C2 on a concrete escaped fragment inside the
    scenario-D document. -/
theorem C2_roundtrip_amended_witness :
    transformVisualContentToActual docD
      (transformActualContentToVisual docD ['x', '\\', 'n', 'y'] ⟨0, 7⟩) ⟨0, 7⟩
      = ['x', '\\', 'n', 'y'] :=
  C2_roundtrip_amended docD ['x', '\\', 'n', 'y'] ⟨0, 7⟩ (by decide)

/-- C7 counterexample: inside a string span of the valid document docD,
    the fragment backslash-backslash-n holds no real newline escape (the
    locator returns the empty list), yet toVisual rewrites it to
    backslash followed by a raw line break instead of leaving it
    unchanged. -/
theorem C7_toVisual_counterexample :
    (getStringRangeAtPosition docD ⟨0, 7⟩).isSome = true ∧
    findNewlineEscapeSequences ['\\', '\\', 'n'] = [] ∧
    transformActualContentToVisual docD ['\\', '\\', 'n'] ⟨0, 7⟩ = ['\\', '\n'] ∧
    transformActualContentToVisual docD ['\\', '\\', 'n'] ⟨0, 7⟩ ≠ ['\\', '\\', 'n'] := by
  decide

/-- C7 amended: for a fragment whose range start lies inside a string
    span, toVisual replaces every leftmost, non-overlapping backslash-n
    character pair by a line break, regardless of the parity of the
    backslashes before it (so backslash-backslash-n becomes backslash
    followed by a line break); a fragment whose range start lies outside
    every span passes through unchanged. -/
theorem C7_toVisual_amended (docText : List Char) (rangeStart : Pos) :
    ((getStringRangeAtPosition docText rangeStart).isSome = true →
      transformActualContentToVisual docText [] rangeStart = [] ∧
      (∀ f, transformActualContentToVisual docText ('\\' :: 'n' :: f) rangeStart =
        '\n' :: transformActualContentToVisual docText f rangeStart) ∧
      (∀ c f, (c ≠ '\\' ∨ ∀ rest, f ≠ 'n' :: rest) →
        transformActualContentToVisual docText (c :: f) rangeStart =
          c :: transformActualContentToVisual docText f rangeStart) ∧
      transformActualContentToVisual docText ['\\', '\\', 'n'] rangeStart = ['\\', '\n'])
    ∧ (getStringRangeAtPosition docText rangeStart = none →
        ∀ f, transformActualContentToVisual docText f rangeStart = f) := by
  constructor
  · intro hsome
    obtain ⟨r, hr⟩ := Option.isSome_iff_exists.mp hsome
    refine ⟨?_, ?_, ?_, ?_⟩
    · rw [transformActualContentToVisual, hr]; rfl
    · intro f
      rw [transformActualContentToVisual, transformActualContentToVisual, hr]
      rfl
    · intro c f hcf
      rw [transformActualContentToVisual, transformActualContentToVisual, hr]
      exact replaceEscapeWithLF_cons c f hcf
    · rw [transformActualContentToVisual, hr]; rfl
  · intro hnone f
    rw [transformActualContentToVisual, hnone]

/-- Witness for the amended C7 inside the scenario-D document. -/
theorem C7_toVisual_amended_witness :
    transformActualContentToVisual docD ('\\' :: 'n' :: ['y']) ⟨0, 7⟩ =
      '\n' :: transformActualContentToVisual docD ['y'] ⟨0, 7⟩ :=
  ((C7_toVisual_amended docD ⟨0, 7⟩).1 (by decide)).2.1 ['y']

/-- C3 counterexample: in the valid document docC3 the string span
    "x\nABCy" has a newline escape (decorated at offsets 8-10), yet an
    insertion of a bare line break at position (0,12) - inside the span
    but not touching the decoration - produces no counter-edit at all. -/
theorem C3_counterEdit_counterexample :
    jsonValid docC3 = true ∧
    applyDecorations docC3 = [⟨⟨0, 8⟩, ⟨0, 10⟩⟩] ∧
    getStringRangeAtPosition docC3 ⟨0, 12⟩ =
      some ⟨⟨0, 6⟩, ⟨0, 15⟩, ['x', '\\', 'n', 'A', 'B', 'C', 'y'], true⟩ ∧
    (onDidChangeTextDocument st0 (applyDecorations docC3)
        ⟨mkJsonDocument docC3, [⟨⟨0, 12⟩, ⟨0, 12⟩, ['\n']⟩]⟩).2 = [] := by
  decide

/-- C3 amended: the counter-edit is synthesized when, in addition to the
    claimed hypotheses, the mutation's range intersects (touching
    included) the range of at least one current decoration and the
    inserted text does not also contain the two-character escape
    sequence; the counter-edit then replaces the inserted text by the
    text with every bare line break escaped, and the in-flight flag is
    raised while it is applied. -/
theorem C3_counterEdit_amended (st : SyncState) (decorations : List Decoration)
    (event : TextDocumentChangeEvent) (change : ContentChange)
    (hflag : st.isProcessingEdit = false)
    (hjson : isJsonDocument event.document = true)
    (hvalid : (parseJsonSafely event.document.text).isValid = true)
    (hchanges : event.contentChanges = [change])
    (hdeco : getDecorationsInRange decorations change.rangeStart change.rangeEnd ≠ [])
    (hspan : ∃ r, getStringRangeAtPosition event.document.text change.rangeStart = some r ∧
      r.hasNewlines = true)
    (hlf : '\n' ∈ change.text)
    (hnopair : containsEscapePair change.text = false) :
    (onDidChangeTextDocument st decorations event).2 =
      [⟨change.rangeStart, change.rangeEnd, replaceLFWithEscape change.text⟩] ∧
    (onDidChangeTextDocument st decorations event).1.isProcessingEdit = true := by
  obtain ⟨r, hr, -⟩ := hspan
  have hedit : processContentChange event.document.text decorations change =
      some ⟨change.rangeStart, change.rangeEnd, replaceLFWithEscape change.text⟩ := by
    rw [processContentChange]
    rw [if_pos (by
      cases hd : getDecorationsInRange decorations change.rangeStart change.rangeEnd with
      | nil => exact absurd hd hdeco
      | cons a l => simp [hd])]
    rw [handleDecoratedAreaEdit, hr]
    rw [if_pos ⟨List.elem_eq_true_of_mem hlf, by simp [hnopair]⟩]
    rw [convertLineBreaksToEscapeSequences]
    rw [transformVisualContentToActual, hr]
    rw [if_pos (replaceLFWithEscape_ne change.text hlf)]
  rw [onDidChangeTextDocument, if_neg (by simp [hflag]), if_neg (by simp [hjson]),
    if_neg (by simp [hvalid])]
  simp [hchanges, List.filterMap_cons, hedit, hflag]

/-- Witness for the amended C3: an insertion of a bare line break right
    inside the decorated escape of docD produces the escaped
    counter-edit. -/
theorem C3_counterEdit_amended_witness :
    (onDidChangeTextDocument st0 (applyDecorations docD)
        ⟨mkJsonDocument docD, [⟨⟨0, 9⟩, ⟨0, 9⟩, ['\n']⟩]⟩).2 =
      [⟨⟨0, 9⟩, ⟨0, 9⟩, replaceLFWithEscape ['\n']⟩] :=
  (C3_counterEdit_amended st0 (applyDecorations docD)
    ⟨mkJsonDocument docD, [⟨⟨0, 9⟩, ⟨0, 9⟩, ['\n']⟩]⟩ ⟨⟨0, 9⟩, ⟨0, 9⟩, ['\n']⟩
    rfl (by decide) (by decide) rfl (by decide)
    ⟨⟨⟨0, 6⟩, ⟨0, 12⟩, ['x', '\\', 'n', 'y'], true⟩, by decide, rfl⟩
    (by decide) (by decide)).1

/-- C4: fail-closed on invalid JSON: scanning reports invalid with an
    empty span list, occurrence extraction is empty, and the engine
    performs no action at all on change events for such a document. -/
theorem C4_fail_closed (text : List Char) (hinvalid : jsonValid text = false) :
    parseJsonSafely text = ⟨false, []⟩ ∧
    extractNewlinePositions text = [] ∧
    getDetailedNewlinePositions text = [] ∧
    ∀ (st : SyncState) (decorations : List Decoration) (event : TextDocumentChangeEvent),
      event.document.text = text →
      onDidChangeTextDocument st decorations event = (st, []) := by
  have hparse : parseJsonSafely text = ⟨false, []⟩ := by
    rw [parseJsonSafely, if_neg (by simp [hinvalid])]
  refine ⟨hparse, ?_, ?_, ?_⟩
  · rw [extractNewlinePositions, hparse]; rfl
  · rw [getDetailedNewlinePositions, hparse]; rfl
  · intro st decorations event hdoc
    rw [onDidChangeTextDocument]
    by_cases hflag : st.isProcessingEdit
    · rw [if_pos hflag]
    · rw [if_neg hflag]
      by_cases hjson : isJsonDocument event.document
      · rw [if_neg (by simp [hjson]), if_pos (by simp [hdoc, hparse])]
      · rw [if_pos (by simp [hjson])]

/-- Witness for C4 at the fail-closed scenario document. -/
theorem C4_fail_closed_witness :
    parseJsonSafely docInvalid = ⟨false, []⟩ ∧
    onDidChangeTextDocument st0 []
      ⟨mkJsonDocument docInvalid, [⟨⟨0, 1⟩, ⟨0, 1⟩, ['x']⟩]⟩ = (st0, []) := by
  have h := C4_fail_closed docInvalid (by decide)
  exact ⟨h.1, h.2.2.2 st0 [] ⟨mkJsonDocument docInvalid, [⟨⟨0, 1⟩, ⟨0, 1⟩, ['x']⟩]⟩ rfl⟩

/-- C9: reentrancy guard: while the in-flight flag is set every incoming
    change notification is skipped whole - no content change is
    processed, no document state updated, no edit synthesized - and the
    completion callback of the counter-edit application clears the
    flag. -/
theorem C9_reentrancy_guard (st : SyncState) (decorations : List Decoration)
    (event : TextDocumentChangeEvent) (hflag : st.isProcessingEdit = true) :
    onDidChangeTextDocument st decorations event = (st, []) ∧
    (applyEditCompleted st).isProcessingEdit = false := by
  constructor
  · rw [onDidChangeTextDocument, if_pos (by simp [hflag])]
  · rfl

/-- Witness for C9 with the flag raised on a concrete event. -/
theorem C9_reentrancy_guard_witness :
    onDidChangeTextDocument ⟨true, []⟩ (applyDecorations docD)
      ⟨mkJsonDocument docD, [⟨⟨0, 9⟩, ⟨0, 9⟩, ['\n']⟩]⟩ = (⟨true, []⟩, []) ∧
    (applyEditCompleted ⟨true, []⟩).isProcessingEdit = false :=
  C9_reentrancy_guard ⟨true, []⟩ (applyDecorations docD)
    ⟨mkJsonDocument docD, [⟨⟨0, 9⟩, ⟨0, 9⟩, ['\n']⟩]⟩ rfl

lemma actualToVisualFold_spec (o : Nat) :
    ∀ (l : List DetailedNewlinePosition) (a b : Nat),
      actualToVisualFold o l (a, b) =
        (a + l.countP (fun np => decide (np.offset + 2 ≤ o)),
          match (l.filter (fun np => decide (np.offset + 2 ≤ o))).getLast? with
          | some np => o - (np.offset + 2)
          | none => b) := by
  intro l
  induction l with
  | nil => intro a b; simp [actualToVisualFold]
  | cons np rest ih =>
    intro a b
    by_cases hq : np.offset + 2 ≤ o
    · have hlt : np.offset < o := by omega
      rw [actualToVisualFold, if_pos hlt, if_pos hq, ih]
      have hpt : decide (np.offset + 2 ≤ o) = true := by simp [hq]
      simp only [List.countP_cons, List.filter_cons, hpt, if_true, Prod.mk.injEq]
      refine ⟨by omega, ?_⟩
      cases hfr : rest.filter (fun np => decide (np.offset + 2 ≤ o)) with
      | nil => simp
      | cons x xs => rw [List.getLast?_cons_cons]; rfl
    · have hpred : (fun np => decide (np.offset + 2 ≤ o)) np = false := by
        simp [hq]
      have hstep : actualToVisualFold o (np :: rest) (a, b) = actualToVisualFold o rest (a, b) := by
        rw [actualToVisualFold]
        by_cases hlt : np.offset < o
        · rw [if_pos hlt, if_neg hq]
        · rw [if_neg hlt]
      rw [hstep, ih, List.countP_cons, List.filter_cons]
      simp [hpred]

/-- C5 counterexample: in the valid two-line document docM the single
    occurrence ends at offset 11 and the cursor on y has actual offset
    11, so the claimed visual line - the count of occurrences with end
    offset at most the target, here 1 - disagrees with the code, which
    adds that count to the actual line number and returns line 2. -/
theorem C5_actualToVisual_counterexample :
    jsonValid docM = true ∧
    positionAt docM 11 = ⟨1, 9⟩ ∧
    (getDetailedNewlinePositions docM).map (fun np => (np.offset, np.endOffset)) = [(9, 11)] ∧
    offsetAt docM ⟨1, 9⟩ = 11 ∧
    (getDetailedNewlinePositions docM).countP (fun np => decide (np.endOffset ≤ 11)) = 1 ∧
    transformActualToVisual docM ⟨1, 9⟩ = ⟨2, 0⟩ ∧
    (transformActualToVisual docM ⟨1, 9⟩).line ≠ 1 := by decide

/-- C5 amended: with occurrences present, transformActualToVisual maps a
    position to the visual line equal to the position's own actual line
    number PLUS the number of occurrences whose end offset is at most the
    target offset, and to the column: target offset minus the end offset
    of the last such occurrence when one exists, the original character
    otherwise; a position of a document without occurrences is returned
    unchanged.  On the single-line scenario-D document the cursor on y
    (actual offset 10, line 0) lands on visual line 1, column 0. -/
theorem C5_actualToVisual_amended :
    (∀ (text : List Char) (p : Pos),
      getDetailedNewlinePositions text ≠ [] →
      transformActualToVisual text p =
        ⟨p.line + (getDetailedNewlinePositions text).countP
            (fun np => decide (np.offset + 2 ≤ offsetAt text p)),
          match ((getDetailedNewlinePositions text).filter
              (fun np => decide (np.offset + 2 ≤ offsetAt text p))).getLast? with
          | some np => offsetAt text p - (np.offset + 2)
          | none => p.character⟩)
    ∧ (∀ (text : List Char) (p : Pos),
        getDetailedNewlinePositions text = [] → transformActualToVisual text p = p)
    ∧ (getDetailedNewlinePositions docD).map (fun np => (np.offset, np.endOffset)) = [(8, 10)]
    ∧ offsetAt docD ⟨0, 10⟩ = 10
    ∧ transformActualToVisual docD ⟨0, 10⟩ = ⟨1, 0⟩ := by
  refine ⟨?_, ?_, by decide, by decide, by decide⟩
  · intro text p hne
    rw [transformActualToVisual]
    rw [if_neg (by simpa using hne)]
    simp only [actualToVisualFold_spec, Nat.zero_max]
  · intro text p h
    rw [transformActualToVisual, if_pos (by simp [h])]

/-- Witness for the amended C5 on the two-line document. -/
theorem C5_actualToVisual_amended_witness :
    transformActualToVisual docM ⟨1, 9⟩ =
      ⟨1 + (getDetailedNewlinePositions docM).countP
          (fun np => decide (np.offset + 2 ≤ offsetAt docM ⟨1, 9⟩)),
        match ((getDetailedNewlinePositions docM).filter
            (fun np => decide (np.offset + 2 ≤ offsetAt docM ⟨1, 9⟩))).getLast? with
        | some np => offsetAt docM ⟨1, 9⟩ - (np.offset + 2)
        | none => 9⟩ :=
  C5_actualToVisual_amended.1 docM ⟨1, 9⟩ (by decide)

/-- C6 counterexample: on the scenario-D document the cursor on y maps to
    visual position (1,0), but mapping (1,0) back lands on (0,2), not on
    the original (0,10): the two conversions are not mutually inverse. -/
theorem C6_position_roundtrip_counterexample :
    jsonValid docD = true ∧
    transformActualToVisual docD ⟨0, 10⟩ = ⟨1, 0⟩ ∧
    transformVisualToActual docD ⟨1, 0⟩ = ⟨0, 2⟩ ∧
    transformVisualToActual docD (transformActualToVisual docD ⟨0, 10⟩) ≠ ⟨0, 10⟩ := by
  decide

/-- C6 amended: both conversions return every position unchanged when the
    document has no located occurrences, and then the round trip is the
    identity in both composition orders; with occurrences present the
    conversions are not mutually inverse. -/
theorem C6_position_roundtrip_amended (text : List Char) (p : Pos)
    (h : getDetailedNewlinePositions text = []) :
    transformVisualToActual text (transformActualToVisual text p) = p ∧
    transformActualToVisual text (transformVisualToActual text p) = p := by
  have h1 : ∀ q, transformActualToVisual text q = q := by
    intro q
    rw [transformActualToVisual, if_pos (by simp [h])]
  have h2 : ∀ q, transformVisualToActual text q = q := by
    intro q
    rw [transformVisualToActual, if_pos (by simp [h])]
  simp [h1, h2]

/-- Witness for the amended C6 on a document without escapes. -/
theorem C6_position_roundtrip_amended_witness :
    transformVisualToActual docPlain (transformActualToVisual docPlain ⟨0, 3⟩) = ⟨0, 3⟩ ∧
    transformActualToVisual docPlain (transformVisualToActual docPlain ⟨0, 3⟩) = ⟨0, 3⟩ :=
  C6_position_roundtrip_amended docPlain ⟨0, 3⟩ (by decide)

lemma posBefore_iff (a b : Pos) :
    posBefore a b = true ↔ (a.line < b.line ∨ (a.line = b.line ∧ a.character < b.character)) := by
  simp [posBefore]

lemma posAfterOrEqual_iff (a b : Pos) :
    posAfterOrEqual a b = true ↔ (b.line < a.line ∨ (b.line = a.line ∧ b.character ≤ a.character)) := by
  simp [posAfterOrEqual]

lemma positionAtAux_ge (text : List Char) :
    ∀ k line ch, line < (positionAtAux text k line ch).line ∨
      ((positionAtAux text k line ch).line = line ∧ ch ≤ (positionAtAux text k line ch).character) := by
  induction text with
  | nil =>
    intro k line ch
    cases k with
    | zero => right; exact ⟨rfl, le_refl ch⟩
    | succ k => right; exact ⟨rfl, le_refl ch⟩
  | cons c rest ih =>
    intro k line ch
    cases k with
    | zero => right; exact ⟨rfl, le_refl ch⟩
    | succ k =>
      by_cases hc : c = '\n'
      · rw [positionAtAux, if_pos hc]
        rcases ih k (line + 1) 0 with h | ⟨h1, -⟩
        · left; omega
        · left; omega
      · rw [positionAtAux, if_neg hc]
        rcases ih k line (ch + 1) with h | ⟨h1, h2⟩
        · left; exact h
        · right; exact ⟨h1, by omega⟩

lemma positionAtAux_strict_mono (text : List Char) :
    ∀ o1 o2 line ch, o1 < o2 → o2 ≤ text.length →
      posBefore (positionAtAux text o1 line ch) (positionAtAux text o2 line ch) = true := by
  induction text with
  | nil => intro o1 o2 line ch h1 h2; simp at h2; omega
  | cons c rest ih =>
    intro o1 o2 line ch h1 h2
    cases o2 with
    | zero => omega
    | succ k2 =>
      cases o1 with
      | zero =>
        by_cases hc : c = '\n'
        · simp only [positionAtAux, if_pos hc]
          rcases positionAtAux_ge rest k2 (line + 1) 0 with h | ⟨hl, -⟩
          · rw [posBefore_iff]; left; simp; omega
          · rw [posBefore_iff]; left; simp; omega
        · simp only [positionAtAux, if_neg hc]
          rcases positionAtAux_ge rest k2 line (ch + 1) with h | ⟨hl, hg⟩
          · rw [posBefore_iff]; left; simpa using h
          · rw [posBefore_iff]; right; simp; omega
      | succ k1 =>
        by_cases hc : c = '\n'
        · simp only [positionAtAux, if_pos hc]
          exact ih k1 k2 (line + 1) 0 (by omega) (by simpa using h2)
        · simp only [positionAtAux, if_neg hc]
          exact ih k1 k2 line (ch + 1) (by omega) (by simpa using h2)

lemma positionAt_strict_mono (text : List Char) (o1 o2 : Nat)
    (h1 : o1 < o2) (h2 : o2 ≤ text.length) :
    posBefore (positionAt text o1) (positionAt text o2) = true :=
  positionAtAux_strict_mono text o1 o2 0 0 h1 h2

lemma posBefore_asymm (a b : Pos) (h : posBefore a b = true) : posAfterOrEqual b a = true := by
  rw [posBefore_iff] at h
  rw [posAfterOrEqual_iff]
  omega

lemma positionAt_mono (text : List Char) (o1 o2 : Nat)
    (h1 : o1 ≤ o2) (h2 : o2 ≤ text.length) :
    posAfterOrEqual (positionAt text o2) (positionAt text o1) = true := by
  rcases Nat.eq_or_lt_of_le h1 with rfl | hlt
  · rw [posAfterOrEqual_iff]; omega
  · exact posBefore_asymm _ _ (positionAt_strict_mono text o1 o2 hlt h2)

lemma findStringEndAux_spec (text : List Char) :
    ∀ fuel i j, findStringEndAux text fuel i = some j →
      i ≤ j ∧ j < text.length ∧ text.getD j 'A' = '"' := by
  intro fuel
  induction fuel with
  | zero => intro i j h; simp [findStringEndAux] at h
  | succ fuel ih =>
    intro i j h
    rw [findStringEndAux] at h
    by_cases hin : i < text.length
    · rw [if_pos hin] at h
      by_cases hbs : text.getD i 'A' = '\\'
      · rw [if_pos hbs] at h
        by_cases hin1 : i + 1 < text.length
        · rw [if_pos hin1] at h
          by_cases hu : text.getD (i + 1) 'A' = 'u'
          · rw [if_pos hu] at h
            by_cases h6 : i + 5 < text.length ∧
                isValidUnicodeEscape (jsSubstring text (i + 2) (i + 6)) = true
            · rw [if_pos h6] at h
              have := ih (i + 6) j h
              exact ⟨by omega, this.2⟩
            · rw [if_neg h6] at h
              have := ih (i + 2) j h
              exact ⟨by omega, this.2⟩
          · rw [if_neg hu] at h
            have := ih (i + 2) j h
            exact ⟨by omega, this.2⟩
        · rw [if_neg hin1] at h
          simp at h
      · rw [if_neg hbs] at h
        by_cases hq : text.getD i 'A' = '"'
        · rw [if_pos hq] at h
          injection h with h
          subst h
          exact ⟨le_refl i, hin, hq⟩
        · rw [if_neg hq] at h
          have := ih (i + 1) j h
          exact ⟨by omega, this.2⟩
    · rw [if_neg hin] at h
      simp at h

lemma extractSingleStringRange_spec (docText scanText : List Char) (startIndex : Nat)
    (r : StringRange) (ni : Nat)
    (h : extractSingleStringRange docText scanText startIndex = some (r, ni)) :
    ∃ qe, startIndex < qe ∧ qe < scanText.length ∧
      scanText.getD startIndex 'A' = '"' ∧ scanText.getD qe 'A' = '"' ∧
      r.start = positionAt docText startIndex ∧ r.endPos = positionAt docText (qe + 1) ∧
      r.content = jsSubstring scanText (startIndex + 1) qe ∧
      r.hasNewlines = containsNewlines r.content ∧ ni = qe + 1 := by
  rw [extractSingleStringRange] at h
  by_cases hq : scanText.getD startIndex 'A' = '"'
  · rw [if_pos hq] at h
    cases hfind : findStringEndAux scanText scanText.length (startIndex + 1) with
    | none => rw [hfind] at h; simp at h
    | some stringEnd =>
      rw [hfind] at h
      obtain ⟨hge, hlt, hqe⟩ := findStringEndAux_spec scanText _ _ _ hfind
      simp only [Option.some.injEq, Prod.mk.injEq] at h
      obtain ⟨hr, hni⟩ := h
      refine ⟨stringEnd, by omega, hlt, hq, hqe, ?_, ?_, ?_, ?_, hni.symm⟩
      · rw [← hr]
      · rw [← hr]
      · rw [← hr]
      · rw [← hr]
  · rw [if_neg hq] at h
    simp at h

lemma mem_extractLoopAux (docText scanText : List Char) :
    ∀ fuel i cnt r, r ∈ extractLoopAux docText scanText fuel i cnt →
      ∃ qs qe, qs < qe ∧ qe < scanText.length ∧
        scanText.getD qs 'A' = '"' ∧ scanText.getD qe 'A' = '"' ∧
        r.start = positionAt docText qs ∧ r.endPos = positionAt docText (qe + 1) ∧
        r.content = jsSubstring scanText (qs + 1) qe ∧
        r.hasNewlines = containsNewlines r.content := by
  intro fuel
  induction fuel with
  | zero => intro i cnt r h; simp [extractLoopAux] at h
  | succ fuel ih =>
    intro i cnt r h
    rw [extractLoopAux] at h
    by_cases hcond : i < scanText.length ∧ cnt < maxStrings
    · rw [if_pos hcond] at h
      by_cases hq : scanText.getD i 'A' = '"'
      · rw [if_pos hq] at h
        cases hext : extractSingleStringRange docText scanText i with
        | none => rw [hext] at h; exact ih _ _ r h
        | some pair =>
          rw [hext] at h
          rcases List.mem_cons.mp h with rfl | h2
          · obtain ⟨qe, hlt, hqlen, hq1, hq2, hs, he, hc, hn, -⟩ :=
              extractSingleStringRange_spec docText scanText i pair.1 pair.2 (by rw [hext])
            exact ⟨i, qe, hlt, hqlen, hq1, hq2, hs, he, hc, hn⟩
          · exact ih _ _ r h2
      · rw [if_neg hq] at h
        exact ih _ _ r h
    · rw [if_neg hcond] at h
      simp at h

lemma mem_extractLimitsLoopAux (docText scanText : List Char) :
    ∀ fuel i r, r ∈ extractLimitsLoopAux docText scanText fuel i →
      ∃ qs qe, qs < qe ∧ qe < scanText.length ∧
        scanText.getD qs 'A' = '"' ∧ scanText.getD qe 'A' = '"' ∧
        r.start = positionAt docText qs ∧ r.endPos = positionAt docText (qe + 1) ∧
        r.content = jsSubstring scanText (qs + 1) qe ∧
        r.hasNewlines = containsNewlines r.content := by
  intro fuel
  induction fuel with
  | zero => intro i r h; simp [extractLimitsLoopAux] at h
  | succ fuel ih =>
    intro i r h
    rw [extractLimitsLoopAux] at h
    by_cases hcond : i < scanText.length
    · rw [if_pos hcond] at h
      by_cases hq : scanText.getD i 'A' = '"'
      · rw [if_pos hq] at h
        cases hext : extractSingleStringRange docText scanText i with
        | none => rw [hext] at h; exact ih _ r h
        | some pair =>
          rw [hext] at h
          rcases List.mem_cons.mp h with rfl | h2
          · obtain ⟨qe, hlt, hqlen, hq1, hq2, hs, he, hc, hn, -⟩ :=
              extractSingleStringRange_spec docText scanText i pair.1 pair.2 (by rw [hext])
            exact ⟨i, qe, hlt, hqlen, hq1, hq2, hs, he, hc, hn⟩
          · exact ih _ r h2
      · rw [if_neg hq] at h
        exact ih _ r h
    · rw [if_neg hcond] at h
      simp at h

lemma getD_take (text : List Char) (n i : Nat) (d : Char) (h : i < n) :
    (text.take n).getD i d = text.getD i d := by
  rw [List.getD_eq_getElem?_getD, List.getD_eq_getElem?_getD, List.getElem?_take]
  rw [if_pos h]

lemma jsSubstring_take (text : List Char) (n a b : Nat) (h : b ≤ n) :
    jsSubstring (text.take n) a b = jsSubstring text a b := by
  rw [jsSubstring, jsSubstring, List.take_take, Nat.min_eq_left h]

lemma mem_spans_spec (text : List Char) (r : StringRange)
    (hr : r ∈ extractStringRangesFromValidJson text) :
    ∃ qs qe, qs < qe ∧ qe < text.length ∧
      text.getD qs 'A' = '"' ∧ text.getD qe 'A' = '"' ∧
      r.start = positionAt text qs ∧ r.endPos = positionAt text (qe + 1) ∧
      r.content = jsSubstring text (qs + 1) qe ∧
      r.hasNewlines = containsNewlines r.content := by
  rw [extractStringRangesFromValidJson] at hr
  by_cases hbig : text.length > maxFileSize
  · rw [if_pos hbig] at hr
    rw [extractStringRangesWithLimits] at hr
    obtain ⟨qs, qe, hlt, hqlen, hq1, hq2, hs, he, hc, hn⟩ :=
      mem_extractLimitsLoopAux text (text.take maxFileSize) _ _ r hr
    have hlen : (text.take maxFileSize).length = maxFileSize := by
      rw [List.length_take]
      omega
    have hqe : qe < maxFileSize := by omega
    have hqs : qs < maxFileSize := by omega
    refine ⟨qs, qe, hlt, by omega, ?_, ?_, hs, he, ?_, hn⟩
    · rw [← getD_take text maxFileSize qs 'A' hqs]; exact hq1
    · rw [← getD_take text maxFileSize qe 'A' hqe]; exact hq2
    · rw [hc, jsSubstring_take text maxFileSize (qs + 1) qe (by omega)]
  · rw [if_neg hbig] at hr
    exact mem_extractLoopAux text text _ _ _ r hr

/-- C8: every span of a scanned valid document runs from an opening quote
    to one past its closing quote (so start is strictly before end), its
    content is exactly the document substring strictly between the
    quotes, escapes intact, and its hasNewlines flag holds iff the
    locator finds a real occurrence in that content. -/
theorem C8_span_invariant (text : List Char) (r : StringRange)
    (hvalid : jsonValid text = true)
    (hr : r ∈ (parseJsonSafely text).stringRanges) :
    posBefore r.start r.endPos = true ∧
    r.hasNewlines = containsNewlines r.content ∧
    ∃ qs qe, qs < qe ∧ qe < text.length ∧
      text.getD qs 'A' = '"' ∧ text.getD qe 'A' = '"' ∧
      r.start = positionAt text qs ∧ r.endPos = positionAt text (qe + 1) ∧
      r.content = jsSubstring text (qs + 1) qe := by
  rw [parseJsonSafely, if_pos (by simp [hvalid])] at hr
  simp only at hr
  obtain ⟨qs, qe, hlt, hqlen, hq1, hq2, hs, he, hc, hn⟩ := mem_spans_spec text r hr
  refine ⟨?_, hn, qs, qe, hlt, hqlen, hq1, hq2, hs, he, hc⟩
  rw [hs, he]
  exact positionAt_strict_mono text qs (qe + 1) (by omega) (by omega)

/-- Witness for C8 at the value span of the scenario-D document. -/
theorem C8_span_invariant_witness :
    posBefore (⟨⟨0, 6⟩, ⟨0, 12⟩, ['x', '\\', 'n', 'y'], true⟩ : StringRange).start
      (⟨⟨0, 6⟩, ⟨0, 12⟩, ['x', '\\', 'n', 'y'], true⟩ : StringRange).endPos = true ∧
    (⟨⟨0, 6⟩, ⟨0, 12⟩, ['x', '\\', 'n', 'y'], true⟩ : StringRange).hasNewlines =
      containsNewlines (⟨⟨0, 6⟩, ⟨0, 12⟩, ['x', '\\', 'n', 'y'], true⟩ : StringRange).content ∧
    ∃ qs qe, qs < qe ∧ qe < docD.length ∧
      docD.getD qs 'A' = '"' ∧ docD.getD qe 'A' = '"' ∧
      (⟨⟨0, 6⟩, ⟨0, 12⟩, ['x', '\\', 'n', 'y'], true⟩ : StringRange).start = positionAt docD qs ∧
      (⟨⟨0, 6⟩, ⟨0, 12⟩, ['x', '\\', 'n', 'y'], true⟩ : StringRange).endPos =
        positionAt docD (qe + 1) ∧
      (⟨⟨0, 6⟩, ⟨0, 12⟩, ['x', '\\', 'n', 'y'], true⟩ : StringRange).content =
        jsSubstring docD (qs + 1) qe :=
  C8_span_invariant docD ⟨⟨0, 6⟩, ⟨0, 12⟩, ['x', '\\', 'n', 'y'], true⟩ (by decide) (by decide)

lemma posAfterOrEqual_refl (x : Pos) : posAfterOrEqual x x = true := by
  simp [posAfterOrEqual]

lemma posBefore_irrefl (x : Pos) : posBefore x x = false := by
  simp [posBefore]

/-- C10: on a valid document, getStringRangeAtPosition returns a span
    exactly when the position lies in the half-open interval
    [start, end) of some scanned span; a position on the opening quote or
    on the closing quote of a span is inside it, the position one past
    the closing quote is not. -/
theorem C10_half_open_membership (text : List Char) (p : Pos)
    (hvalid : jsonValid text = true) :
    ((getStringRangeAtPosition text p).isSome = true ↔
      ∃ r ∈ (parseJsonSafely text).stringRanges,
        posAfterOrEqual p r.start = true ∧ posBefore p r.endPos = true)
    ∧ ∀ r ∈ (parseJsonSafely text).stringRanges, ∀ qs qe : Nat,
        qs < qe → qe + 1 ≤ text.length →
        r.start = positionAt text qs → r.endPos = positionAt text (qe + 1) →
        isPositionInRange (positionAt text qs) r = true ∧
        isPositionInRange (positionAt text qe) r = true ∧
        isPositionInRange (positionAt text (qe + 1)) r = false := by
  have hv : (parseJsonSafely text).isValid = true := by
    rw [parseJsonSafely, if_pos (by simp [hvalid])]
  constructor
  · simp only [getStringRangeAtPosition]
    rw [if_pos (by simp [hv])]
    rw [List.find?_isSome]
    constructor
    · rintro ⟨r, hr, hin⟩
      rw [isPositionInRange, Bool.and_eq_true] at hin
      exact ⟨r, hr, hin⟩
    · rintro ⟨r, hr, h1, h2⟩
      exact ⟨r, hr, by rw [isPositionInRange, Bool.and_eq_true]; exact ⟨h1, h2⟩⟩
  · intro r hr qs qe h1 h2 hs he
    refine ⟨?_, ?_, ?_⟩
    · rw [isPositionInRange, hs, he, posAfterOrEqual_refl,
        positionAt_strict_mono text qs (qe + 1) (by omega) h2]
      rfl
    · rw [isPositionInRange, hs, he,
        positionAt_mono text qs qe (by omega) (by omega),
        positionAt_strict_mono text qe (qe + 1) (by omega) h2]
      rfl
    · rw [isPositionInRange, he, posBefore_irrefl, Bool.and_false]

/-- Witness for C10 at the value span of the scenario-D document. -/
theorem C10_half_open_membership_witness :
    ((getStringRangeAtPosition docD ⟨0, 7⟩).isSome = true ↔
      ∃ r ∈ (parseJsonSafely docD).stringRanges,
        posAfterOrEqual ⟨0, 7⟩ r.start = true ∧ posBefore ⟨0, 7⟩ r.endPos = true) ∧
    isPositionInRange (positionAt docD 6)
      (⟨⟨0, 6⟩, ⟨0, 12⟩, ['x', '\\', 'n', 'y'], true⟩ : StringRange) = true ∧
    isPositionInRange (positionAt docD 11)
      (⟨⟨0, 6⟩, ⟨0, 12⟩, ['x', '\\', 'n', 'y'], true⟩ : StringRange) = true ∧
    isPositionInRange (positionAt docD 12)
      (⟨⟨0, 6⟩, ⟨0, 12⟩, ['x', '\\', 'n', 'y'], true⟩ : StringRange) = false := by
  have h := C10_half_open_membership docD ⟨0, 7⟩ (by decide)
  have h2 := h.2 ⟨⟨0, 6⟩, ⟨0, 12⟩, ['x', '\\', 'n', 'y'], true⟩ (by decide) 6 11
    (by omega) (by decide) (by decide) (by decide)
  exact ⟨h.1, h2.1, h2.2.1, h2.2.2⟩

/-- The recogniser accepts deeply nested valid JSON: one array level
    costs three recogniser steps for one character, which the fuel of
    jsonValid covers. -/
lemma jsonValid_nested_arrays :
    jsonValid (("[[1]]").toList) = true ∧
    jsonValid (("[[[[\"a\"]]]]").toList) = true ∧
    jsonValid (("[[[[[[[\"x\\ny\"]]]]]]]").toList) = true := by decide

/-- On a deeply nested valid document the scanner finds the string span
    and the locator its newline escape, so the span, occurrence and
    transform theorems all apply to it. -/
lemma jsonValid_deep_nesting_spans :
    (parseJsonSafely (("[[[[[[[\"x\\ny\"]]]]]]]").toList)).isValid = true ∧
    ((parseJsonSafely (("[[[[[[[\"x\\ny\"]]]]]]]").toList)).stringRanges.map
      (fun r => r.hasNewlines)) = [true] ∧
    ((getDetailedNewlinePositions (("[[[[[[[\"x\\ny\"]]]]]]]").toList)).map
      (fun np => np.offset)) = [9] := by decide
